import Mathlib

/-!
Verification of the Skill-Know backend core against its specification.

The Python sources embedded here (shallowly, as executable Lean functions):
- `backend/app/services/agent/middleware/dynamic_tools.py`
  (phase state machine: `SkillPhase`, `StatefulToolMiddleware._get_current_phase`,
  `StatefulToolMiddleware.aafter_model`)
- `backend/app/services/skill_search/intent.py`
  (`IntentExtractor.extract`, `_extract_keywords_basic`, `_detect_intent_basic`)
- `backend/app/services/skill_search/searcher.py`
  (`SkillSearcher.search`, `SkillSearcher._match_skill`)
- `backend/app/services/agent/streams/response_handler.py`
  (`StreamingResponseHandler`: chunk handling, tool dedup, `finalize`)

Python floats are modelled as exact rationals (`ℚ`); Python strings as Lean
`String` with explicit, kernel-executable re-implementations of the primitive
text operations used by the source (`in`-substring test, `str.split()`,
`str.strip()`, ASCII `str.lower()`).  Regular-expression search (Python's `re`
module, external to this repository) is passed in as an oracle parameter
`reSearch : String → String → Option Bool`, where `none` models a `re.error`
raised on a malformed pattern and `some b` a successful search returning a
match (`true`) or no match (`false`).
-/

/-! ## Python string primitives -/

/-- The ASCII whitespace characters recognized by Python's `str.split()` /
`str.strip()` (the Unicode-only whitespace code points are not needed by any
input considered here). -/
def isPySpace (c : Char) : Bool :=
  c = ' ' || c = '\t' || c = '\n' || c = '\r' || c = '\x0b' || c = '\x0c'

/-- `startsWithL needle hay`: `hay` begins with `needle` (on character lists). -/
def startsWithL : List Char → List Char → Bool
  | [], _ => true
  | _ :: _, [] => false
  | n :: ns, h :: hs => n = h && startsWithL ns hs

/-- `containsSub needle hay`: `needle` occurs as a contiguous substring of
`hay` (on character lists). -/
def containsSub (needle : List Char) : List Char → Bool
  | [] => needle.isEmpty
  | h :: hs => startsWithL needle (h :: hs) || containsSub needle hs

/-- Python's `needle in hay` substring test on strings. -/
def pySubstr (needle hay : String) : Bool :=
  containsSub needle.data hay.data

/-- Accumulator-based splitting on whitespace runs, discarding empty pieces;
`acc` holds the characters of the current word in reverse. -/
def splitWSGo : List Char → List Char → List (List Char)
  | acc, [] => if acc.isEmpty then [] else [acc.reverse]
  | acc, c :: cs =>
    if isPySpace c then
      (if acc.isEmpty then splitWSGo [] cs else acc.reverse :: splitWSGo [] cs)
    else splitWSGo (c :: acc) cs

/-- Python's no-argument `str.split()`: split on whitespace runs, no empty
pieces. -/
def pySplitWS (s : String) : List String :=
  (splitWSGo [] s.data).map (fun l => String.mk l)

/-- Python's no-argument `str.strip()`: drop leading and trailing whitespace. -/
def pyStrip (s : String) : String :=
  String.mk (((s.data.dropWhile isPySpace).reverse.dropWhile isPySpace).reverse)

/-- Python's `str.lower()`, restricted to ASCII case mapping (all case-carrying
characters appearing in the embedded data are ASCII). -/
def pyLower (s : String) : String :=
  String.mk (s.data.map Char.toLower)

/-! ## Exact rational arithmetic, kernel-executable

Core Lean marks `Rat.add` / `Rat.mul` `@[irreducible]`, so the arithmetic used
inside executable definitions is re-expressed through `mkRat` (which the kernel
evaluates) and bridged to the ordinary field operations by the lemmas that
follow each definition. -/

/-- Addition on `ℚ` through `mkRat`. -/
def qAdd (a b : ℚ) : ℚ :=
  mkRat (a.num * (b.den : ℤ) + b.num * (a.den : ℤ)) (a.den * b.den)

theorem qAdd_eq (a b : ℚ) : qAdd a b = a + b := by
  rw [qAdd, Rat.mkRat_eq_div]
  push_cast
  conv_rhs => rw [← Rat.num_div_den a, ← Rat.num_div_den b]
  field_simp

/-- Multiplication on `ℚ` through `mkRat`. -/
def qMul (a b : ℚ) : ℚ :=
  mkRat (a.num * b.num) (a.den * b.den)

theorem qMul_eq (a b : ℚ) : qMul a b = a * b := by
  rw [qMul, Rat.mkRat_eq_div]
  push_cast
  conv_rhs => rw [← Rat.num_div_den a, ← Rat.num_div_den b]
  rw [div_mul_div_comm]

/-- Division of a rational by a natural number, through `mkRat`. -/
def qDivNat (a : ℚ) (n : ℕ) : ℚ :=
  mkRat a.num (a.den * n)

theorem qDivNat_eq (a : ℚ) (n : ℕ) : qDivNat a n = a / n := by
  rcases Nat.eq_zero_or_pos n with h | h
  · subst h
    simp [qDivNat, Rat.mkRat_eq_div]
  · rw [qDivNat, Rat.mkRat_eq_div]
    push_cast
    conv_rhs => rw [← Rat.num_div_den a]
    rw [div_div]

/-- Floor of a rational (`q.num / q.den` with Euclidean integer division, which
agrees with `⌊q⌋` because `q.den > 0`). -/
def qFloor (q : ℚ) : ℤ := q.num / q.den

theorem qFloor_eq (q : ℚ) : qFloor q = ⌊q⌋ := Rat.floor_def.symm

/-! ## Phase state machine
(`backend/app/services/agent/middleware/dynamic_tools.py`) -/

/-- The `SkillPhase` enumeration of `dynamic_tools.py`. -/
inductive SkillPhase where
  | INIT
  | INTENT_ANALYSIS
  | SKILL_RETRIEVAL
  | TOOL_PREPARATION
  | EXECUTION
deriving DecidableEq, Repr

/-- The string value of each phase (the Python enum's `.value`). -/
def SkillPhase.value : SkillPhase → String
  | .INIT => "init"
  | .INTENT_ANALYSIS => "intent_analysis"
  | .SKILL_RETRIEVAL => "skill_retrieval"
  | .TOOL_PREPARATION => "tool_preparation"
  | .EXECUTION => "execution"

/-- `StatefulToolMiddleware._get_current_phase`: parse the phase string stored
in the agent state (default key value `"init"`), falling back to `INIT` on a
`ValueError` for an unrecognized value. -/
def getCurrentPhase (phaseStr : String) : SkillPhase :=
  if phaseStr = "init" then .INIT
  else if phaseStr = "intent_analysis" then .INTENT_ANALYSIS
  else if phaseStr = "skill_retrieval" then .SKILL_RETRIEVAL
  else if phaseStr = "tool_preparation" then .TOOL_PREPARATION
  else if phaseStr = "execution" then .EXECUTION
  else .INIT

/-- The tool-call loop of `StatefulToolMiddleware.aafter_model`: walk the last
AI message's tool calls in order and return the first phase update triggered,
or `none` when no tool call triggers one (the Python method returns a state
update dict or `None`). -/
def aafterModelLoop (currentPhase : SkillPhase) : List String → Option SkillPhase
  | [] => none
  | toolName :: rest =>
    if toolName = "extract_keywords" && currentPhase = .INIT then
      some .SKILL_RETRIEVAL
    else if toolName = "search_skills" && currentPhase = .SKILL_RETRIEVAL then
      some .TOOL_PREPARATION
    else if toolName = "get_skill_content" && currentPhase = .TOOL_PREPARATION then
      some .EXECUTION
    else
      aafterModelLoop currentPhase rest

/-- The phase after one `aafter_model` step, given the current phase and the
tool-call names of the last AI message (`[]` both for a message without tool
calls and for the early-`None` returns): an update dict replaces the phase,
a `None` return leaves it unchanged. -/
def phaseStep (currentPhase : SkillPhase) (toolCalls : List String) : SkillPhase :=
  (aafterModelLoop currentPhase toolCalls).getD currentPhase

/-- Position of a phase in the order INIT, INTENT_ANALYSIS, SKILL_RETRIEVAL,
TOOL_PREPARATION, EXECUTION. -/
def phaseRank : SkillPhase → ℕ
  | .INIT => 0
  | .INTENT_ANALYSIS => 1
  | .SKILL_RETRIEVAL => 2
  | .TOOL_PREPARATION => 3
  | .EXECUTION => 4

/-! ## Intent extraction
(`backend/app/services/skill_search/intent.py`) -/

/-- An entity returned by the language-model augmentation, a JSON object
modelled as a key-value list (only passed through by `IntentExtractor`). -/
abbrev Entity := List (String × String)

/-- `IntentResult` of `intent.py`. -/
structure IntentResult where
  keywords : List String := []
  intent : String := "search"
  entities : List Entity := []
  raw_query : String := ""
deriving DecidableEq, Repr

/-- CJK unified ideographs, the `一-鿿` range kept by the cleaning
regex of `_extract_keywords_basic`. -/
def isCJK (c : Char) : Bool :=
  0x4e00 ≤ c.toNat && c.toNat ≤ 0x9fff

/-- Python regex `\w` (word character), restricted to ASCII letters, digits and
underscore; the CJK word characters are covered separately by `isCJK`, and no
other non-ASCII word characters occur in the inputs considered here. -/
def isPyWordChar (c : Char) : Bool :=
  c.isAlphanum || c = '_'

/-- `re.sub(r'[^\w\s一-鿿]', ' ', text)`: replace every character that
is not a word character, whitespace or a CJK ideograph by a space. -/
def cleanText (text : String) : String :=
  String.mk (text.data.map (fun c =>
    if isPyWordChar c || isPySpace c || isCJK c then c else ' '))

/-- The stopword set of `_extract_keywords_basic`, verbatim. -/
def stopwords : List String :=
  ["的", "了", "是", "在", "我", "有", "和", "就", "不", "人", "都",
   "一", "个", "上", "也", "很", "到", "说", "要", "去", "你", "会",
   "着", "没有", "看", "好", "自己", "这", "那", "什么", "怎么", "如何",
   "the", "a", "an", "is", "are", "was", "were", "be", "been",
   "being", "have", "has", "had", "do", "does", "did", "will",
   "would", "could", "should", "may", "might", "must", "shall",
   "can", "need", "dare", "ought", "used", "to", "of", "in", "for",
   "on", "with", "at", "by", "from", "about", "as", "into", "through",
   "during", "before", "after", "above", "below", "between", "under",
   "again", "further", "then", "once", "here", "there", "when",
   "where", "why", "how", "all", "each", "few", "more", "most",
   "other", "some", "such", "no", "nor", "not", "only", "own",
   "same", "so", "than", "too", "very", "s", "t", "just", "don",
   "now", "i", "me", "my", "myself", "we", "our", "ours", "you",
   "your", "he", "him", "his", "she", "her", "it", "its", "they",
   "them", "their", "what", "which", "who", "whom", "this", "that",
   "想", "请", "帮", "告诉", "介绍", "了解", "学习", "使用"]

/-- `IntentExtractor._extract_keywords_basic`: strip punctuation to spaces,
split on whitespace, strip each word, drop words shorter than 2 characters or
whose lowercase form is a stopword, keep at most 10. -/
def extractKeywordsBasic (text : String) : List String :=
  let words := pySplitWS (cleanText text)
  (((words.map pyStrip).filter (fun w =>
      2 ≤ w.length && !(stopwords.contains (pyLower w))))).take 10

/-- `IntentExtractor._detect_intent_basic`: test the category keyword sets in
the fixed order learn, compare, create, ask against the lowercased text and
fall back to `"search"`. -/
def detectIntentBasic (text : String) : String :=
  let t := pyLower text
  if ["学习", "了解", "入门", "learn", "教程", "怎么用"].any (fun kw => pySubstr kw t) then
    "learn"
  else if ["比较", "对比", "vs", "区别", "哪个好", "compare"].any (fun kw => pySubstr kw t) then
    "compare"
  else if ["创建", "生成", "写", "实现", "create", "build", "make"].any (fun kw => pySubstr kw t) then
    "create"
  else if ["为什么", "怎么", "如何", "why", "how", "what"].any (fun kw => pySubstr kw t) then
    "ask"
  else
    "search"

/-- The JSON object a successful `_extract_with_llm` call may return, with the
three keys `extract` reads (each absent when the model omitted it) plus the
number of any further keys (which only matter for the dict's truthiness in
`if llm_result:`). -/
structure LLMDict where
  keywords : Option (List String) := none
  intent : Option String := none
  entities : Option (List Entity) := none
  otherKeys : ℕ := 0
deriving DecidableEq, Repr

/-- Python truthiness of the dict returned by `_extract_with_llm`. -/
def dictTruthy (d : LLMDict) : Bool :=
  d.keywords.isSome || d.intent.isSome || d.entities.isSome || d.otherKeys ≠ 0

/-- Outcome of the language-model augmentation path, an input to the embedded
`extract` because the model call itself is external to the repository:
`raised` models any exception escaping `_extract_with_llm` (caught by
`extract`), `parsed none` its `None` return (no JSON object found in the
reply, or `json.loads` failure), `parsed (some d)` a decoded JSON object. -/
inductive AugOutcome where
  | raised
  | parsed (result : Option LLMDict)
deriving DecidableEq, Repr

/-- First-occurrence deduplication with the keys seen so far accumulated in
`seen`. -/
def pyDedupGo (seen : List String) : List String → List String
  | [] => []
  | a :: l => if seen.contains a then pyDedupGo seen l else a :: pyDedupGo (a :: seen) l

/-- First-occurrence deduplication, Python's `list(dict.fromkeys(...))`. -/
def pyDedup (l : List String) : List String := pyDedupGo [] l

/-- `IntentExtractor.extract`: always compute the baseline keywords and intent;
when a language model is configured (`aug ≠ none`), merge a successfully
decoded, truthy JSON object into the result, and on any failure keep the
baseline untouched. -/
def extract (userMessage : String) (aug : Option AugOutcome) : IntentResult :=
  let base : IntentResult :=
    { keywords := extractKeywordsBasic userMessage
      intent := detectIntentBasic userMessage
      entities := []
      raw_query := userMessage }
  match aug with
  | none => base
  | some .raised => base
  | some (.parsed none) => base
  | some (.parsed (some d)) =>
    if dictTruthy d then
      { keywords := pyDedup (base.keywords ++ d.keywords.getD [])
        intent := d.intent.getD base.intent
        entities := d.entities.getD []
        raw_query := userMessage }
    else base

/-! ## Skill search
(`backend/app/services/skill_search/searcher.py`, data shapes from
`query.py` and `app/models/skill.py`) -/

/-- The columns of the `Skill` model read by the searcher.  Nullable-in-effect
values (the source guards them with `or ""` / `or []` / a truthiness test) are
modelled as `Option`; `category` holds the category enum's string value. -/
structure Skill where
  id : String
  name : String
  description : Option String := none
  content : Option String := none
  trigger_keywords : Option (List String) := none
  category : Option String := none
  is_active : Bool := true
deriving DecidableEq, Repr

/-- `QueryCondition` of `query.py`. -/
structure QueryCondition where
  type : String
  pattern : String
  weight : ℚ := 1
  field : String := "all"
deriving DecidableEq, Repr

/-- `SearchQuery` of `query.py` (default `min_score` 0.3). -/
structure SearchQuery where
  conditions : List QueryCondition := []
  intent : String := "search"
  limit : ℕ := 10
  min_score : ℚ := mkRat 3 10
deriving DecidableEq, Repr

/-- `SkillMatch` of `searcher.py`. -/
structure SkillMatch where
  skill_id : String
  name : String
  description : String
  category : String
  score : ℚ
  matched_by : String
  matched_keywords : List String := []
  preview : String := ""
deriving DecidableEq, Repr

/-- `SearchResult` of `searcher.py`; `query_time_ms` is wall-clock time and is
not modelled, and the source field name `matches` is a Lean keyword, hence
`matchList`. -/
structure SearchResult where
  matchList : List SkillMatch := []
  total_count : ℕ := 0
deriving DecidableEq, Repr

/-- Python string slicing `s[:n]` (counts code points). -/
def pyTake (s : String) (n : ℕ) : String := String.mk (s.data.take n)

/-- The regular-expression oracle: the behaviour of `re.search(pattern, text,
re.IGNORECASE)`, with `none` for a raised `re.error`. -/
abbrev ReSearch := String → String → Option Bool

/-- The `search_texts` dict built at the top of `_match_skill`. -/
structure SearchTexts where
  name : String
  description : String
  content : String
  keywords : String
  category : String
  all : String
deriving DecidableEq, Repr

/-- Build `search_texts` from a skill exactly as `_match_skill` does. -/
def buildSearchTexts (skill : Skill) : SearchTexts :=
  { name := pyLower skill.name
    description := pyLower (skill.description.getD "")
    content := pyTake (pyLower (skill.content.getD "")) 1000
    keywords := pyLower (String.intercalate " " (skill.trigger_keywords.getD []))
    category := (skill.category.map pyLower).getD ""
    all := pyLower (skill.name ++ " " ++ skill.description.getD "" ++ " " ++ skill.content.getD "") }

/-- `search_texts.get(cond.field, search_texts["all"])`. -/
def getFieldText (texts : SearchTexts) (f : String) : String :=
  if f = "name" then texts.name
  else if f = "description" then texts.description
  else if f = "content" then texts.content
  else if f = "keywords" then texts.keywords
  else if f = "category" then texts.category
  else texts.all

/-- Whether one query condition matches a skill's texts, the `matched` flag of
one iteration of the condition loop in `_match_skill`: `keyword` and `tag` are
case-insensitive substring tests on the selected field text, `regex` asks the
oracle (a raised `re.error` is swallowed as a non-match), `category` is a
substring test against the category text regardless of `cond.field`, and any
other condition type never matches. -/
def condMatches (reSearch : ReSearch) (texts : SearchTexts) (cond : QueryCondition) : Bool :=
  let fieldText := getFieldText texts cond.field
  if cond.type = "keyword" then pySubstr (pyLower cond.pattern) fieldText
  else if cond.type = "regex" then (reSearch cond.pattern fieldText).getD false
  else if cond.type = "category" then pySubstr (pyLower cond.pattern) texts.category
  else if cond.type = "tag" then pySubstr (pyLower cond.pattern) fieldText
  else false

/-- The loop state of `_match_skill`: running weight total, collected
`matched_keywords`, current `matched_by` label and running `max_weight`. -/
structure MatchAcc where
  total : ℚ
  matched_keywords : List String
  matched_by : String
  max_weight : ℚ
deriving DecidableEq, Repr

/-- The initial loop state of `_match_skill` (`matched_by` starts as
`"keyword"`). -/
def initMatchAcc : MatchAcc :=
  { total := 0, matched_keywords := [], matched_by := "keyword", max_weight := 0 }

/-- One iteration of the condition loop of `_match_skill`: on a match, add the
weight to the total and refresh `max_weight`; only a `keyword` match appends
the pattern to `matched_keywords`; only `regex` and `category` matches write
`matched_by`. -/
def condStep (reSearch : ReSearch) (texts : SearchTexts) (acc : MatchAcc)
    (cond : QueryCondition) : MatchAcc :=
  let matched := condMatches reSearch texts cond
  { total := if matched then qAdd acc.total cond.weight else acc.total
    matched_keywords :=
      if cond.type = "keyword" && matched then acc.matched_keywords ++ [cond.pattern]
      else acc.matched_keywords
    matched_by :=
      if cond.type = "regex" && matched then "regex"
      else if cond.type = "category" && matched then "category"
      else acc.matched_by
    max_weight :=
      if matched && decide (acc.max_weight < cond.weight) then cond.weight
      else acc.max_weight }

/-- Round-half-to-even of a rational to an integer (the rounding Python's
built-in `round` performs). -/
def qSub (a b : ℚ) : ℚ :=
  mkRat (a.num * (b.den : ℤ) - b.num * (a.den : ℤ)) (a.den * b.den)

theorem qSub_eq (a b : ℚ) : qSub a b = a - b := by
  rw [qSub, Rat.mkRat_eq_div]
  push_cast
  conv_rhs => rw [← Rat.num_div_den a, ← Rat.num_div_den b]
  field_simp
  ring

/-- Round-half-to-even to the nearest integer. -/
def roundHalfEven (q : ℚ) : ℤ :=
  let f := qFloor q
  let frac := qSub q (f : ℚ)
  if frac < mkRat 1 2 then f
  else if mkRat 1 2 < frac then f + 1
  else if f % 2 = 0 then f else f + 1

/-- Python's `round(q, 3)` on the exact rational value. -/
def pyRound3 (q : ℚ) : ℚ :=
  mkRat (roundHalfEven (qMul q 1000)) 1000

/-- `SkillSearcher._match_skill`: fold the condition loop, return `None` when
the weight total is 0, otherwise normalize the score by the condition count,
apply the ×1.2 name-match boost, clamp to 1 and round to 3 decimals. -/
def matchSkill (reSearch : ReSearch) (skill : Skill) (query : SearchQuery) :
    Option SkillMatch :=
  let texts := buildSearchTexts skill
  let acc := query.conditions.foldl (condStep reSearch texts) initMatchAcc
  if acc.total = 0 then none
  else
    let normalized := min (qDivNat acc.total (max query.conditions.length 1)) 1
    let normalized :=
      if acc.matched_keywords.any (fun kw => pySubstr (pyLower kw) texts.name) then
        qMul normalized (mkRat 6 5)
      else normalized
    let normalized := min normalized 1
    some { skill_id := skill.id
           name := skill.name
           description := skill.description.getD ""
           category := skill.category.getD ""
           score := pyRound3 normalized
           matched_by := acc.matched_by
           matched_keywords := acc.matched_keywords
           preview := pyTake (skill.content.getD "") 200 }

/-- Stable descending insertion by score: a later element is placed after every
earlier element whose score is at least as large. -/
def insertByScoreDesc (m : SkillMatch) : List SkillMatch → List SkillMatch
  | [] => [m]
  | x :: xs => if x.score ≤ m.score then m :: x :: xs else x :: insertByScoreDesc m xs

/-- Stable sort by score descending, the model of Python's
`matches.sort(key=lambda m: m.score, reverse=True)` (`list.sort` is stable and
`reverse=True` keeps equal elements in their original order). -/
def sortByScoreDesc : List SkillMatch → List SkillMatch
  | [] => []
  | m :: l => insertByScoreDesc m (sortByScoreDesc l)

/-- The candidate loop of `SkillSearcher.search`: keep each match whose score
reaches `query.min_score`, in candidate order. -/
def searchLoop (reSearch : ReSearch) (query : SearchQuery) : List Skill → List SkillMatch
  | [] => []
  | skill :: rest =>
    match matchSkill reSearch skill query with
    | some m =>
      if query.min_score ≤ m.score then m :: searchLoop reSearch query rest
      else searchLoop reSearch query rest
    | none => searchLoop reSearch query rest

/-- `SkillSearcher.search` on a given table of skills (the SQL query restricts
to `is_active` rows): collect the qualifying matches, sort by score descending
(stable), and truncate to `query.limit`. -/
def search (reSearch : ReSearch) (query : SearchQuery) (skills : List Skill) :
    SearchResult :=
  let ms := searchLoop reSearch query (skills.filter (fun s => s.is_active))
  let ms := (sortByScoreDesc ms).take query.limit
  { matchList := ms, total_count := ms.length }

/-- Spec-side notion: the total weight of the conditions matching a skill,
written as a sum over the condition list. -/
def totalMatchedWeight (reSearch : ReSearch) (skill : Skill) (query : SearchQuery) : ℚ :=
  (query.conditions.map (fun c =>
    if condMatches reSearch (buildSearchTexts skill) c then c.weight else 0)).sum

/-- Spec-side notion for the claimed `matched_by` behaviour: the kind of the
last condition (in query order) that matched the skill, whatever its kind. -/
def lastMatchedCondKind (reSearch : ReSearch) (skill : Skill) (query : SearchQuery) :
    Option String :=
  ((query.conditions.filter (fun c =>
    condMatches reSearch (buildSearchTexts skill) c)).map (fun c => c.type)).getLast?

/-- Spec-side notion for the actual `matched_by` behaviour: the kind of the
last matching condition whose kind is `regex` or `category`, defaulting to
`"keyword"` when no such condition matched. -/
def lastRegexCategoryKind (reSearch : ReSearch) (skill : Skill) (query : SearchQuery) :
    String :=
  (((query.conditions.filter (fun c =>
      condMatches reSearch (buildSearchTexts skill) c &&
        (c.type = "regex" || c.type = "category"))).map (fun c => c.type)).getLast?).getD
    "keyword"

/-! ## Streaming response handler
(`backend/app/services/agent/streams/response_handler.py`) -/

/-- The mutable state of `StreamingResponseHandler`. -/
structure HandlerState where
  fullContent : String := ""
  fullReasoning : String := ""
  seenToolIds : List String := []
  contentEvents : ℕ := 0
  reasoningEvents : ℕ := 0
  reasoningChars : ℕ := 0
deriving DecidableEq, Repr

/-- The state a fresh handler starts in. -/
def initialHandlerState : HandlerState := {}

/-- The events the handler emits. -/
inductive StreamEvent where
  | assistantDelta (delta : String)
  | assistantReasoningDelta (delta : String)
  | assistantFinal (content : String) (reasoning : Option String)
deriving DecidableEq, Repr

/-- The shape of a tool message's raw `content` as far as
`_handle_tool_message` distinguishes it (string / list / dict / anything
else). -/
inductive PyJsonish where
  | str (s : String)
  | listVal
  | dictVal
  | other
deriving DecidableEq, Repr

/-- `_handle_ai_chunk_v1` on a chunk already parsed into its text delta and
reasoning delta (the `parse_content_blocks` result): a non-empty text delta is
accumulated and emitted, then a non-empty reasoning delta likewise. -/
def handleAIChunkV1 (s : HandlerState) (textDelta reasoningDelta : String) :
    HandlerState × List StreamEvent :=
  let afterText : HandlerState × List StreamEvent :=
    if textDelta ≠ "" then
      ({ s with fullContent := s.fullContent ++ textDelta
                contentEvents := s.contentEvents + 1 },
       [.assistantDelta textDelta])
    else (s, [])
  let s1 := afterText.1
  if reasoningDelta ≠ "" then
    ({ s1 with fullReasoning := s1.fullReasoning ++ reasoningDelta
               reasoningChars := s1.reasoningChars + reasoningDelta.length
               reasoningEvents := s1.reasoningEvents + 1 },
     afterText.2 ++ [.assistantReasoningDelta reasoningDelta])
  else afterText

/-- `_handle_tool_message`: a string message id already in `seen_tool_ids`
returns immediately; a fresh string id is recorded.  The remainder of the
source parses `msg.content` into `parsed_data` (swallowing any `json.loads`
error) and then discards it, so the content affects neither state nor events,
and no event is emitted for tool results. -/
def handleToolMessage (s : HandlerState) (msgId : Option String)
    (_content : PyJsonish) : HandlerState × List StreamEvent :=
  match msgId with
  | some i =>
    if s.seenToolIds.contains i then (s, [])
    else ({ s with seenToolIds := s.seenToolIds ++ [i] }, [])
  | none => (s, [])

/-- One streamed message, already classified the way `handle_message`
dispatches it. -/
inductive Chunk where
  | aiChunk (text reasoning : String)
  | toolMsg (id : Option String) (content : PyJsonish)
deriving DecidableEq, Repr

/-- `handle_message`: dispatch one chunk. -/
def handleMessage (s : HandlerState) : Chunk → HandlerState × List StreamEvent
  | .aiChunk t r => handleAIChunkV1 s t r
  | .toolMsg i c => handleToolMessage s i c

/-- The handler state after an invocation that streamed the given chunks. -/
def processAll (chunks : List Chunk) : HandlerState :=
  chunks.foldl (fun st ch => (handleMessage st ch).1) initialHandlerState

/-- The structure `finalize` returns. -/
structure FinalResult where
  content : String
  reasoning : Option String
deriving DecidableEq, Repr

/-- `finalize`: when no content delta was ever counted and the accumulated
reasoning has a non-whitespace character (`full_reasoning.strip()` is truthy),
promote the reasoning into the content and empty the reasoning; then return
{content, reasoning or None} and emit the final event carrying the same data. -/
def finalize (s : HandlerState) : FinalResult × List StreamEvent :=
  let s :=
    if s.contentEvents = 0 && pyStrip s.fullReasoning ≠ "" then
      { s with fullContent := s.fullReasoning, fullReasoning := "" }
    else s
  let result : FinalResult :=
    { content := s.fullContent
      reasoning := if s.fullReasoning ≠ "" then some s.fullReasoning else none }
  (result, [.assistantFinal result.content result.reasoning])

/-! ## Concrete instances used by witnesses and counterexamples -/

/-- A regex oracle that reports no match for every pattern (no regex condition
occurs in the queries it is used with). -/
def noRe : ReSearch := fun _ _ => some false

/-- A concrete active skill. -/
def skillA : Skill :=
  { id := "s1", name := "Python Decorator Guide", description := some "Guide"
    content := some "decorator usage", trigger_keywords := none
    category := some "search", is_active := true }

/-- A concrete query whose category condition matches `skillA` before its
keyword condition does. -/
def queryA : SearchQuery :=
  { conditions := [{ type := "category", pattern := "sea", weight := 1, field := "category" },
                   { type := "keyword", pattern := "py", weight := 1, field := "all" }]
    limit := 10, min_score := 0 }

/-- The match `_match_skill` returns for `skillA` under `queryA`. -/
def matchA : SkillMatch :=
  { skill_id := "s1", name := "Python Decorator Guide", description := "Guide"
    category := "search", score := 1, matched_by := "category"
    matched_keywords := ["py"], preview := "decorator usage" }

/-- An 11-word query whose baseline keyword extraction fills the 10-keyword
cap. -/
def longQuery : String :=
  "alpha beta gamma delta epsilon zeta eta theta iota kappa lambda"

/-- An augmentation result contributing one keyword not in the baseline. -/
def augKeywords : LLMDict := { keywords := some ["omega"] }

/-! ## Claims -/

/-- C1, counterexample: with the current phase INTENT_ANALYSIS and a tool call
named `extract_keywords` present, `aafter_model` leaves the phase at
INTENT_ANALYSIS instead of moving it to SKILL_RETRIEVAL as the claim states
(the source guards the transition with `current_phase == SkillPhase.INIT`
only). -/
theorem extractKeywords_at_intentAnalysis_no_transition :
    phaseStep .INTENT_ANALYSIS ["extract_keywords"] = .INTENT_ANALYSIS ∧
      phaseStep .INTENT_ANALYSIS ["extract_keywords"] ≠ .SKILL_RETRIEVAL := by
  decide

/-- C3, counterexample: on "how to use decorator in python" the baseline
keywords are as claimed, but the intent is "ask", not "search": the substring
"how" belongs to the ask keyword set tested before the search fallback. -/
theorem decorator_query_intent_is_ask_not_search :
    extractKeywordsBasic "how to use decorator in python" = ["use", "decorator", "python"] ∧
      detectIntentBasic "how to use decorator in python" = "ask" ∧
      detectIntentBasic "how to use decorator in python" ≠ "search" := by
  decide

/-- C3, amended: with no language-model augmentation configured, extracting
from "how to use decorator in python" yields keywords ["use", "decorator",
"python"] (stopwords "how", "to", "in" removed) and intent "ask" — the
classifier tests learn, compare, create, ask in that order against the
lowercased text, "how" matches the ask set, and the "search" fallback is never
reached. -/
theorem baseline_on_decorator_query :
    extract "how to use decorator in python" none =
      { keywords := ["use", "decorator", "python"], intent := "ask", entities := []
        raw_query := "how to use decorator in python" } := by
  decide

/-- C6, counterexample: an invocation that streams a single whitespace-only
reasoning delta has zero content events and a non-empty accumulated reasoning,
yet `finalize` does not promote it: the source requires
`full_reasoning.strip()` to be truthy, so the result keeps content `""` and
reasoning `" "` instead of the claimed promotion. -/
theorem whitespace_reasoning_not_promoted :
    (processAll [Chunk.aiChunk "" " "]).contentEvents = 0 ∧
      (processAll [Chunk.aiChunk "" " "]).fullReasoning ≠ "" ∧
      (finalize (processAll [Chunk.aiChunk "" " "])).1 =
        { content := "", reasoning := some " " } := by
  decide

/-- C6, amended: whenever zero content-delta events were counted during the
invocation and the accumulated reasoning contains a non-whitespace character
(its Python `strip()` is non-empty), `finalize` returns the accumulated
reasoning as content and `None` as reasoning. -/
theorem finalize_promotes_nonwhitespace_reasoning (chunks : List Chunk)
    (h0 : (processAll chunks).contentEvents = 0)
    (h1 : pyStrip (processAll chunks).fullReasoning ≠ "") :
    (finalize (processAll chunks)).1.content = (processAll chunks).fullReasoning ∧
      (finalize (processAll chunks)).1.reasoning = none := by
  simp [finalize, h0, h1]

/-- C6, witness: the chunk sequence with one reasoning delta "thinking" and no
text deltas finalizes to content "thinking" and reasoning `None`. -/
theorem finalize_promotes_nonwhitespace_reasoning_witness :
    (finalize (processAll [Chunk.aiChunk "" "thinking"])).1.content = "thinking" ∧
      (finalize (processAll [Chunk.aiChunk "" "thinking"])).1.reasoning = none := by
  have h := finalize_promotes_nonwhitespace_reasoning [Chunk.aiChunk "" "thinking"]
    (by decide) (by decide)
  refine ⟨?_, h.2⟩
  rw [h.1]
  decide

/-- C8: whenever the augmentation path raises or produces no decodable JSON
object, `extract` still returns normally and the result is exactly the
baseline: baseline keywords, baseline intent, empty entities. -/
theorem extract_failure_returns_baseline (text : String) (aug : Option AugOutcome)
    (h : aug = some .raised ∨ aug = some (.parsed none)) :
    extract text aug =
      { keywords := extractKeywordsBasic text, intent := detectIntentBasic text
        entities := [], raw_query := text } := by
  rcases h with h | h <;> subst h <;> rfl

/-- C8, witness: a raised augmentation error on a concrete input returns the
baseline result. -/
theorem extract_failure_returns_baseline_witness :
    extract "hello" (some .raised) =
      { keywords := ["hello"], intent := "search", entities := [], raw_query := "hello" } := by
  rw [extract_failure_returns_baseline "hello" (some .raised) (Or.inl rfl)]
  decide

/-- C10: the 10-keyword cap applies only to the baseline extraction: every
unaugmented result has at most 10 keywords, but on an 11-word query with one
fresh augmentation keyword the merged list is the capped baseline followed by
the deduplicated augmentation keywords and has 11 > 10 entries. -/
theorem merged_keywords_exceed_cap :
    (∀ t, (extract t none).keywords.length ≤ 10) ∧
      (extract longQuery (some (.parsed (some augKeywords)))).keywords =
        extractKeywordsBasic longQuery ++ ["omega"] ∧
      10 < (extract longQuery (some (.parsed (some augKeywords)))).keywords.length := by
  refine ⟨fun t => ?_, by decide, by decide⟩
  simp only [extract, extractKeywordsBasic]
  exact (List.length_take_le 10 _)

/-- Any phase update returned by the tool-call loop moves the phase to a
strictly later position in the phase order. -/
theorem aafterModelLoop_rank (p p' : SkillPhase) (tcs : List String)
    (h : aafterModelLoop p tcs = some p') : phaseRank p ≤ phaseRank p' := by
  induction tcs with
  | nil => simp [aafterModelLoop] at h
  | cons t rest ih =>
    simp only [aafterModelLoop] at h
    split at h
    · next hcond =>
        simp only [Bool.and_eq_true, decide_eq_true_eq] at hcond
        obtain ⟨-, hp⟩ := hcond
        subst hp
        injection h with h'
        subst h'
        simp [phaseRank]
    · split at h
      · next hcond =>
          simp only [Bool.and_eq_true, decide_eq_true_eq] at hcond
          obtain ⟨-, hp⟩ := hcond
          subst hp
          injection h with h'
          subst h'
          simp [phaseRank]
      · split at h
        · next hcond =>
            simp only [Bool.and_eq_true, decide_eq_true_eq] at hcond
            obtain ⟨-, hp⟩ := hcond
            subst hp
            injection h with h'
            subst h'
            simp [phaseRank]
        · exact ih h

/-- C7: within one unbroken tool-calling exchange the phase only advances
through the order INIT, INTENT_ANALYSIS, SKILL_RETRIEVAL, TOOL_PREPARATION,
EXECUTION: a single `aafter_model` step never lowers the phase's position, and
consequently no sequence of tool-call observations does. -/
theorem phase_only_advances :
    (∀ p tcs, phaseRank p ≤ phaseRank (phaseStep p tcs)) ∧
      (∀ (obs : List (List String)) (p : SkillPhase),
        phaseRank p ≤ phaseRank (obs.foldl phaseStep p)) := by
  have hstep : ∀ p tcs, phaseRank p ≤ phaseRank (phaseStep p tcs) := by
    intro p tcs
    unfold phaseStep
    cases h : aafterModelLoop p tcs with
    | none => simp
    | some p' => simpa using aafterModelLoop_rank p p' tcs h
  refine ⟨hstep, ?_⟩
  intro obs
  induction obs with
  | nil => intro p; simp
  | cons tc rest ih =>
    intro p
    exact le_trans (hstep p tc) (ih (phaseStep p tc))

/-- C9: handling a tool-result chunk emits no event and leaves the content,
the reasoning and all three counters unchanged; its only state effect is
recording a fresh string message id into `seen_tool_ids` (a chunk without a
string id changes nothing), and a second tool-result chunk carrying the same
id is a complete no-op. -/
theorem tool_message_frame_and_dedup :
    (∀ s i c, (handleToolMessage s i c).2 = [] ∧
      (handleToolMessage s i c).1.fullContent = s.fullContent ∧
      (handleToolMessage s i c).1.fullReasoning = s.fullReasoning ∧
      (handleToolMessage s i c).1.contentEvents = s.contentEvents ∧
      (handleToolMessage s i c).1.reasoningEvents = s.reasoningEvents ∧
      (handleToolMessage s i c).1.reasoningChars = s.reasoningChars) ∧
    (∀ s msgId c, (handleToolMessage s (some msgId) c).1.seenToolIds =
      if msgId ∈ s.seenToolIds then s.seenToolIds else s.seenToolIds ++ [msgId]) ∧
    (∀ s c, (handleToolMessage s none c).1 = s) ∧
    (∀ s msgId c c',
      handleToolMessage (handleToolMessage s (some msgId) c).1 (some msgId) c' =
        ((handleToolMessage s (some msgId) c).1, [])) := by
  refine ⟨fun s i c => ?_, fun s msgId c => ?_, fun s c => rfl, fun s msgId c c' => ?_⟩
  · cases i with
    | none => exact ⟨rfl, rfl, rfl, rfl, rfl, rfl⟩
    | some msgId =>
      by_cases h : msgId ∈ s.seenToolIds <;> simp [handleToolMessage, h]
  · by_cases h : msgId ∈ s.seenToolIds <;> simp [handleToolMessage, h]
  · by_cases h : msgId ∈ s.seenToolIds <;> simp [handleToolMessage, h]

/-- The tool-call loop of `aafter_model` fires exactly when the tool expected
by the current phase appears among the tool calls, and INIT is the only phase
from which `extract_keywords` fires. -/
theorem aafterModelLoop_characterization (p : SkillPhase) (tcs : List String) :
    aafterModelLoop p tcs =
      if p = .INIT ∧ "extract_keywords" ∈ tcs then some .SKILL_RETRIEVAL
      else if p = .SKILL_RETRIEVAL ∧ "search_skills" ∈ tcs then some .TOOL_PREPARATION
      else if p = .TOOL_PREPARATION ∧ "get_skill_content" ∈ tcs then some .EXECUTION
      else none := by
  induction tcs with
  | nil => simp [aafterModelLoop]
  | cons t rest ih =>
    simp only [aafterModelLoop, ih, List.mem_cons]
    cases p <;>
      by_cases h1 : t = "extract_keywords" <;>
      by_cases h2 : t = "search_skills" <;>
      by_cases h3 : t = "get_skill_content" <;>
      simp_all [eq_comm]

/-- C1, amended: after a model step, the phase becomes SKILL_RETRIEVAL exactly
when the current phase is INIT (INTENT_ANALYSIS does not transition) and
`extract_keywords` was called, TOOL_PREPARATION when SKILL_RETRIEVAL and
`search_skills` was called, EXECUTION when TOOL_PREPARATION and
`get_skill_content` was called; every other combination of phase and tool
calls, including a step with no tool calls, leaves the phase unchanged. -/
theorem phaseStep_characterization (p : SkillPhase) (tcs : List String) :
    phaseStep p tcs =
      if p = .INIT ∧ "extract_keywords" ∈ tcs then .SKILL_RETRIEVAL
      else if p = .SKILL_RETRIEVAL ∧ "search_skills" ∈ tcs then .TOOL_PREPARATION
      else if p = .TOOL_PREPARATION ∧ "get_skill_content" ∈ tcs then .EXECUTION
      else p := by
  rw [phaseStep, aafterModelLoop_characterization]
  split
  · rfl
  · split
    · rfl
    · split
      · rfl
      · rfl

/-- Defaulted last element of a cons: the head is only used when the tail is
empty. -/
theorem getLast?_getD_cons {α : Type} (x : α) (l : List α) (d : α) :
    ((x :: l).getLast?).getD d = (l.getLast?).getD x := by
  cases l with
  | nil => rfl
  | cons y ys =>
    cases h : (y :: ys).getLast? with
    | none => simp at h
    | some a => simp [List.getLast?_cons_cons, h]

/-- The `matched_by` accumulated by the condition loop is the kind of the last
matching regex-or-category condition, defaulting to the incoming label. -/
theorem foldl_condStep_matched_by (reSearch : ReSearch) (texts : SearchTexts)
    (conds : List QueryCondition) (acc : MatchAcc) :
    (conds.foldl (condStep reSearch texts) acc).matched_by =
      (((conds.filter (fun c => condMatches reSearch texts c &&
          (c.type = "regex" || c.type = "category"))).map
            (fun c => c.type)).getLast?).getD acc.matched_by := by
  induction conds generalizing acc with
  | nil => rfl
  | cons c cs ih =>
    rw [List.foldl_cons, ih]
    by_cases hm : condMatches reSearch texts c
    · by_cases hr : c.type = "regex"
      · simp [List.filter_cons, hm, hr, condStep, getLast?_getD_cons]
      · by_cases hc : c.type = "category"
        · simp [List.filter_cons, hm, hr, hc, condStep, getLast?_getD_cons]
        · simp [List.filter_cons, hm, hr, hc, condStep]
    · simp [List.filter_cons, hm, condStep]

/-- C2, amended: for every query and candidate skill returned as a match, the
`matched_by` label equals the kind of the last matching condition whose kind is
`regex` or `category` (in query condition order); `keyword` and `tag` matches
never update the label, so it stays `"keyword"` when no regex or category
condition matched. -/
theorem matched_by_eq_lastRegexCategoryKind (reSearch : ReSearch) (skill : Skill)
    (query : SearchQuery) (m : SkillMatch)
    (h : matchSkill reSearch skill query = some m) :
    m.matched_by = lastRegexCategoryKind reSearch skill query := by
  simp only [matchSkill] at h
  split at h
  · exact absurd h (by simp)
  · injection h with h
    subst h
    rw [foldl_condStep_matched_by]
    rfl

/-- C2, witness for the amended theorem: the label of the concrete match of
`skillA` under `queryA` is the kind of its last matching regex-or-category
condition. -/
theorem matched_by_eq_lastRegexCategoryKind_witness :
    matchA.matched_by = lastRegexCategoryKind noRe skillA queryA :=
  matched_by_eq_lastRegexCategoryKind noRe skillA queryA matchA (by decide)

/-- C2, counterexample: `skillA` is returned as a match of `queryA`, the last
condition that matched it (in query order) is its `keyword` condition, yet
`matched_by` is `"category"` — the keyword match did not update the label. -/
theorem matched_by_not_last_matched_kind :
    matchSkill noRe skillA queryA = some matchA ∧
      matchA.matched_by = "category" ∧
      lastMatchedCondKind noRe skillA queryA = some "keyword" := by
  decide

/-- The weight total accumulated by the condition loop is the incoming total
plus the summed weights of the matching conditions. -/
theorem foldl_condStep_total (reSearch : ReSearch) (texts : SearchTexts)
    (conds : List QueryCondition) (acc : MatchAcc) :
    (conds.foldl (condStep reSearch texts) acc).total =
      acc.total + (conds.map (fun c =>
        if condMatches reSearch texts c then c.weight else 0)).sum := by
  induction conds generalizing acc with
  | nil => simp
  | cons c cs ih =>
    rw [List.foldl_cons, ih]
    by_cases hm : condMatches reSearch texts c
    · simp only [condStep, hm, if_true, List.map_cons, List.sum_cons, qAdd_eq]
      ring
    · simp [condStep, hm]

/-- Rounding to three decimals keeps a rational of the unit interval inside
the unit interval. -/
theorem pyRound3_bounds (q : ℚ) (h0 : 0 ≤ q) (h1 : q ≤ 1) :
    0 ≤ pyRound3 q ∧ pyRound3 q ≤ 1 := by
  have hx0 : (0 : ℚ) ≤ q * 1000 := by positivity
  have hx1 : q * 1000 ≤ 1000 := by nlinarith
  have hr : 0 ≤ roundHalfEven (qMul q 1000) ∧ roundHalfEven (qMul q 1000) ≤ 1000 := by
    rw [roundHalfEven, qMul_eq]
    have hf0 : 0 ≤ ⌊q * 1000⌋ := Int.floor_nonneg.mpr hx0
    have hfle : (⌊q * 1000⌋ : ℚ) ≤ q * 1000 := Int.floor_le _
    have hf1000 : ⌊q * 1000⌋ ≤ 1000 := by
      have : (⌊q * 1000⌋ : ℚ) ≤ 1000 := le_trans hfle hx1
      exact_mod_cast this
    have hsucc : qSub (q * 1000) ((qFloor (q * 1000) : ℤ) : ℚ) ≥ mkRat 1 2 →
        ⌊q * 1000⌋ + 1 ≤ 1000 := by
      intro hfrac
      rw [qSub_eq, qFloor_eq] at hfrac
      have h2 : (mkRat 1 2 : ℚ) = 1 / 2 := by
        rw [Rat.mkRat_eq_div]; norm_num
      rw [h2] at hfrac
      have : (⌊q * 1000⌋ : ℚ) ≤ 1000 - 1 / 2 := by linarith
      have : (⌊q * 1000⌋ : ℚ) < 1000 := by linarith
      have : ⌊q * 1000⌋ < 1000 := by exact_mod_cast this
      omega
    rw [qFloor_eq]
    split
    · exact ⟨hf0, hf1000⟩
    · split
      · next hlt hge =>
          refine ⟨by omega, ?_⟩
          apply hsucc
          rw [qFloor_eq]
          exact le_of_lt hge
      · next hlt hge =>
          have hfrac : qSub (q * 1000) ((⌊q * 1000⌋ : ℤ) : ℚ) ≥ mkRat 1 2 := le_of_not_lt hlt
          have := hsucc (by rw [qFloor_eq]; exact hfrac)
          split
          · exact ⟨hf0, hf1000⟩
          · exact ⟨by omega, this⟩
  rw [pyRound3, Rat.mkRat_eq_div]
  constructor
  · apply div_nonneg
    · exact_mod_cast hr.1
    · norm_num
  · rw [div_le_one (by norm_num : (0 : ℚ) < (1000 : ℕ))]
    exact_mod_cast hr.2

/-- C4: for every query whose condition weights are all positive and every
skill returned as a match, the score lies in [0, 1]: the weight total is
normalized by the condition count and clamped to 1, and the ×1.2 name-match
boost is re-clamped to 1, so the boost can never push the score above 1. -/
theorem match_score_bounds (reSearch : ReSearch) (skill : Skill)
    (query : SearchQuery) (m : SkillMatch)
    (hw : ∀ c ∈ query.conditions, 0 < c.weight)
    (h : matchSkill reSearch skill query = some m) :
    0 ≤ m.score ∧ m.score ≤ 1 := by
  simp only [matchSkill] at h
  split at h
  · exact absurd h (by simp)
  · next hne =>
    have htot0 : 0 ≤ (query.conditions.foldl
        (condStep reSearch (buildSearchTexts skill)) initMatchAcc).total := by
      rw [foldl_condStep_total]
      simp only [initMatchAcc, zero_add]
      apply List.sum_nonneg
      intro x hx
      rw [List.mem_map] at hx
      obtain ⟨c, hc, rfl⟩ := hx
      split
      · exact le_of_lt (hw c hc)
      · exact le_refl 0
    injection h with h
    subst h
    simp only
    set t := (query.conditions.foldl
      (condStep reSearch (buildSearchTexts skill)) initMatchAcc).total with ht
    have hn1 : (0 : ℚ) ≤ min (qDivNat t (max query.conditions.length 1)) 1 := by
      refine le_min ?_ zero_le_one
      rw [qDivNat_eq]
      apply div_nonneg htot0
      positivity
    have hb : (0 : ℚ) ≤
        (if ((query.conditions.foldl (condStep reSearch (buildSearchTexts skill))
            initMatchAcc).matched_keywords).any
              (fun kw => pySubstr (pyLower kw) (buildSearchTexts skill).name) then
          qMul (min (qDivNat t (max query.conditions.length 1)) 1) (mkRat 6 5)
        else min (qDivNat t (max query.conditions.length 1)) 1) := by
      split
      · rw [qMul_eq]
        apply mul_nonneg hn1
        rw [Rat.mkRat_eq_div]
        norm_num
      · exact hn1
    exact pyRound3_bounds _ (le_min hb zero_le_one) (min_le_right _ 1)

/-- C4, witness: the concrete match of `skillA` under the all-positive-weight
query `queryA` has its score inside [0, 1]. -/
theorem match_score_bounds_witness : 0 ≤ matchA.score ∧ matchA.score ≤ 1 :=
  match_score_bounds noRe skillA queryA matchA (by decide) (by decide)

/-- The candidate loop keeps exactly the matches that reach `min_score`, in
candidate order. -/
theorem searchLoop_eq (reSearch : ReSearch) (query : SearchQuery)
    (skills : List Skill) :
    searchLoop reSearch query skills =
      (skills.filterMap (fun s => matchSkill reSearch s query)).filter
        (fun m => query.min_score ≤ m.score) := by
  induction skills with
  | nil => rfl
  | cons s rest ih =>
    simp only [searchLoop, List.filterMap_cons]
    cases h : matchSkill reSearch s query with
    | none => simpa using ih
    | some m =>
      simp only [List.filter_cons]
      by_cases hs : query.min_score ≤ m.score <;> simp [hs, ih]

/-- A skill is excluded from matching exactly when its total matched weight is
zero. -/
theorem matchSkill_none_iff (reSearch : ReSearch) (skill : Skill)
    (query : SearchQuery) :
    matchSkill reSearch skill query = none ↔
      totalMatchedWeight reSearch skill query = 0 := by
  have hacc : (query.conditions.foldl
      (condStep reSearch (buildSearchTexts skill)) initMatchAcc).total =
        totalMatchedWeight reSearch skill query := by
    rw [foldl_condStep_total]
    simp [initMatchAcc, totalMatchedWeight]
  simp only [matchSkill]
  split
  · next h => simp only [true_iff]; rw [← hacc]; exact h
  · next h =>
    simp only [false_iff, reduceCtorEq]
    intro hq
    exact h (by rw [hacc]; exact hq)

/-- Membership in the insertion is membership in the inserted element or the
list. -/
theorem mem_insertByScoreDesc (y m : SkillMatch) (l : List SkillMatch) :
    y ∈ insertByScoreDesc m l ↔ y = m ∨ y ∈ l := by
  induction l with
  | nil => simp [insertByScoreDesc]
  | cons x xs ih =>
    simp only [insertByScoreDesc]
    split
    · simp
    · simp only [List.mem_cons, ih]
      tauto

/-- Inserting into a descending-sorted list keeps it descending-sorted. -/
theorem insertByScoreDesc_pairwise (m : SkillMatch) (l : List SkillMatch)
    (h : l.Pairwise (fun a b => b.score ≤ a.score)) :
    (insertByScoreDesc m l).Pairwise (fun a b => b.score ≤ a.score) := by
  induction l with
  | nil => simp [insertByScoreDesc]
  | cons x xs ih =>
    rw [List.pairwise_cons] at h
    obtain ⟨hx, hxs⟩ := h
    simp only [insertByScoreDesc]
    split
    · next hle =>
      refine List.Pairwise.cons ?_ (List.Pairwise.cons hx hxs)
      intro y hy
      rcases List.mem_cons.mp hy with rfl | hy'
      · exact hle
      · exact le_trans (hx y hy') hle
    · next hgt =>
      refine List.Pairwise.cons ?_ (ih hxs)
      intro y hy
      rcases (mem_insertByScoreDesc y m xs).mp hy with rfl | hy'
      · exact le_of_not_le hgt
      · exact hx y hy'

/-- The stable insertion sort produces a score-descending list. -/
theorem sortByScoreDesc_pairwise (l : List SkillMatch) :
    (sortByScoreDesc l).Pairwise (fun a b => b.score ≤ a.score) := by
  induction l with
  | nil => exact List.Pairwise.nil
  | cons m rest ih => exact insertByScoreDesc_pairwise m (sortByScoreDesc rest) ih

/-- Inserting an element behind the strictly greater scores does not disturb
the relative order of any fixed score class. -/
theorem insertByScoreDesc_filter_score (m : SkillMatch) (l : List SkillMatch)
    (v : ℚ) :
    (insertByScoreDesc m l).filter (fun x => x.score = v) =
      ((m :: l).filter (fun x => x.score = v)) := by
  induction l with
  | nil => rfl
  | cons x xs ih =>
    simp only [insertByScoreDesc]
    split
    · rfl
    · next hgt =>
      have hne : x.score ≠ m.score := fun hh => hgt (le_of_eq hh)
      by_cases hx : x.score = v
      · have hm : ¬ (m.score = v) := fun hmv => hne (by rw [hx, hmv])
        simp [List.filter_cons, hx, hm, ih]
      · simp [List.filter_cons, hx, ih]

/-- Stability of the sort: within every score class the sorted list keeps the
original order. -/
theorem sortByScoreDesc_filter_score (l : List SkillMatch) (v : ℚ) :
    (sortByScoreDesc l).filter (fun x => x.score = v) =
      l.filter (fun x => x.score = v) := by
  induction l with
  | nil => rfl
  | cons m rest ih =>
    rw [sortByScoreDesc, insertByScoreDesc_filter_score]
    simp only [List.filter_cons, ih]

/-- The sort permutes its input. -/
theorem sortByScoreDesc_perm (l : List SkillMatch) :
    (sortByScoreDesc l).Perm l := by
  induction l with
  | nil => exact List.Perm.refl []
  | cons m rest ih =>
    have hins : ∀ ms : List SkillMatch, (insertByScoreDesc m ms).Perm (m :: ms) := by
      intro ms
      induction ms with
      | nil => exact List.Perm.refl [m]
      | cons x xs ihx =>
        simp only [insertByScoreDesc]
        split
        · exact List.Perm.refl _
        · exact List.Perm.trans (List.Perm.cons x ihx) (List.Perm.swap m x xs)
    exact List.Perm.trans (hins (sortByScoreDesc rest)) (List.Perm.cons m ih)

/-- C5: the search result arises from excluding every skill whose total
matched weight is 0, dropping every match whose score is below `min_score`
before any truncation, sorting the rest by score descending with a stable sort
(a permutation that is score-descending and keeps every score class in
original order), and truncating to at most `limit` entries. -/
theorem search_pipeline_characterization (reSearch : ReSearch)
    (query : SearchQuery) (skills : List Skill) :
    ((search reSearch query skills).matchList =
      (sortByScoreDesc (((skills.filter (fun s => s.is_active)).filterMap
          (fun s => matchSkill reSearch s query)).filter
            (fun m => query.min_score ≤ m.score))).take query.limit) ∧
    (∀ skill, matchSkill reSearch skill query = none ↔
      totalMatchedWeight reSearch skill query = 0) ∧
    (∀ l : List SkillMatch,
      (sortByScoreDesc l).Pairwise (fun a b => b.score ≤ a.score)) ∧
    (∀ (l : List SkillMatch) (v : ℚ),
      (sortByScoreDesc l).filter (fun x => x.score = v) =
        l.filter (fun x => x.score = v)) ∧
    (∀ l : List SkillMatch, (sortByScoreDesc l).Perm l) := by
  refine ⟨?_, fun skill => matchSkill_none_iff reSearch skill query,
    sortByScoreDesc_pairwise, sortByScoreDesc_filter_score, sortByScoreDesc_perm⟩
  simp only [search, searchLoop_eq]
